import Mathlib

/-!
Verification development for the web2embeddings utilities.

The repository consists of Python command-line tools:
  * `tools/data_validator.py`   — line-by-line validation of a JSONL file,
  * `src/vectorizer.py`         — JSONL loader, batch embedder, vector-store writer,
  * `mcp_server/chroma_mcp_server_minimal.py` — a four-tool query/memory server.

We shallowly embed the data model and the operations of those files.  A JSONL
input line is modelled by `Line`: either blank (only whitespace, skipped by both
tools), malformed (raises `json.JSONDecodeError` when parsed), or a parsed JSON
object given as an association list of keys to `JVal` values.  Python exceptions
that propagate (aborting the run) are modelled with `Except Unit`.  External
libraries (the embedding model, the ChromaDB client) are abstracted: embeddings
are an opaque type parameter `E` produced by a given total function, and the
database is an association list from collection names to row lists.
-/

/-- A JSON value as far as the tools inspect it.  The validator only ever asks
whether a field value is a string (`isinstance(x, str)`), takes `len(x)`
(defined in Python for strings, arrays and objects, a `TypeError` otherwise),
and runs regexes over strings.  Numbers, booleans and null are therefore
collapsed to bare constructors; arrays and objects keep only their length. -/
inductive JVal where
  | jstr (s : String)
  | jnum
  | jbool
  | jnull
  | jarr (n : Nat)
  | jobj (n : Nat)
deriving DecidableEq, Repr

/-- Python `len(x)`: defined for strings (number of code points), arrays and
objects (number of elements/keys); raises `TypeError` (here `none`) on
numbers, booleans and `None`. -/
def pyLen : JVal → Option Nat
  | .jstr s => some s.length
  | .jarr n => some n
  | .jobj n => some n
  | _ => none

/-- A parsed JSON object: association list from keys to values.  `json.loads`
produces dictionaries, so keys are distinct; lookups use the first match. -/
abbrev Doc := List (String × JVal)

/-- One line of the input JSONL file.  `blank` is a line whose `strip()` is
empty; `malformed` is a non-blank line on which `json.loads` raises; `doc` is a
non-blank line parsing to a JSON object (the only case the claims exercise;
top-level non-object JSON is not modelled). -/
inductive Line where
  | blank
  | malformed
  | doc (d : Doc)
deriving DecidableEq, Repr

namespace Line

def isBlank : Line → Bool
  | .blank => true
  | _ => false

def isMalformed : Line → Bool
  | .malformed => true
  | _ => false

end Line

/-! ## Data validator (`tools/data_validator.py`, class `DataValidator`) -/

namespace DataValidator

/-- The list `required_fields = ['id', 'text', 'source']` of `_validate_document`. -/
def required_fields : List String := ["id", "text", "source"]

/-- An entry of `self.errors`.  The Python code stores formatted message
strings; we keep the discriminating content (kind, line number, payload),
so that "append one message" corresponds to "append one entry". -/
inductive VErr where
  | fileNotFound (path : String)
  | jsonError (lineNum : Nat)
  | missingFields (lineNum : Nat) (fields : List String)
  | duplicateId (lineNum : Nat) (id : String)
deriving DecidableEq, Repr

/-- An entry of `self.warnings`, likewise by discriminating content. -/
inductive VWarn where
  | fieldNotString (lineNum : Nat) (field : String)
  | fieldEmpty (lineNum : Nat) (field : String)
  | textTooShort (lineNum : Nat) (len : Nat)
  | textTooLong (lineNum : Nat) (len : Nat)
  | idSpecialChars (lineNum : Nat) (id : String)
deriving DecidableEq, Repr

/-- The `self.stats` dictionary.  The two `Counter` fields are kept as the list of pattern
strings in insertion order (a `Counter` is the multiset of that list). -/
structure VStats where
  total_lines : Nat
  valid_docs : Nat
  empty_lines : Nat
  json_errors : Nat
  missing_fields : Nat
  duplicate_ids : Nat
  text_lengths : List Nat
  id_patterns : List String
  source_patterns : List String
deriving DecidableEq, Repr

def initStats : VStats :=
  { total_lines := 0, valid_docs := 0, empty_lines := 0, json_errors := 0
    missing_fields := 0, duplicate_ids := 0, text_lengths := []
    id_patterns := [], source_patterns := [] }

/-- The validator's mutable state during `validate`: the stats, the two message
lists, and the `seen_ids` set (a list without duplicates, membership-tested). -/
structure VState where
  stats : VStats
  errors : List VErr
  warnings : List VWarn
  seen_ids : List String
deriving DecidableEq, Repr

def initState : VState :=
  { stats := initStats, errors := [], warnings := [], seen_ids := [] }

/-- Python `not s.strip()`: true exactly when every character is whitespace
(`strip()` of such a string is empty, and the empty string is falsy). -/
def pyStripEmpty (s : String) : Bool := s.toList.all Char.isWhitespace

/-- The body of the `for field in required_fields` loop of
`_validate_document`: missing field — collect it; present non-string —
warn; present blank string — warn. -/
def checkFieldStep (d : Doc) (ln : Nat) (acc : List String × List VWarn)
    (f : String) : List String × List VWarn :=
  match d.lookup f with
  | none => (acc.1 ++ [f], acc.2)
  | some (JVal.jstr s) =>
      if pyStripEmpty s then (acc.1, acc.2 ++ [VWarn.fieldEmpty ln f]) else acc
  | some _ => (acc.1, acc.2 ++ [VWarn.fieldNotString ln f])

/-- The whole field loop.  Returns (missing field names in order, warnings in
order). -/
def checkFields (d : Doc) (ln : Nat) : List String × List VWarn :=
  required_fields.foldl (checkFieldStep d ln) ([], [])

/-- The missing-field list alone, as a filter (proved equal to
`(checkFields d ln).1` below). -/
def missingOf (d : Doc) : List String :=
  required_fields.filter (fun f => (d.lookup f).isNone)

/-- Python `re.match(r'^[a-zA-Z0-9_-]+$', s)` as a Boolean: `$` also matches
just before a single trailing newline, and the character class is ASCII. -/
def idPatternOk (s : String) : Bool :=
  let cs := s.toList
  let t := if cs.getLast? = some '\n' then cs.dropLast else cs
  decide (t ≠ []) && t.all (fun c => c.isAlphanum || c == '_' || c == '-')

/-- The method `_validate_document`: append field warnings; if any required field is
missing, record one error and report invalid; otherwise warn on text length
(`len(data['text'])`, a `TypeError` — `.error ()` — on a number/bool/null
text) and on the id regex (`re.match` raises `TypeError` on a non-string id),
and report valid.  The `none` lookup branches are unreachable because the
fields were just found present. -/
def validate_document (st : VState) (ln : Nat) (d : Doc) :
    Except Unit (VState × Bool) :=
  let res := checkFields d ln
  let st := { st with warnings := st.warnings ++ res.2 }
  if res.1 ≠ [] then
    .ok ({ st with errors := st.errors ++ [.missingFields ln res.1] }, false)
  else
    match d.lookup "text" with
    | none => .error ()
    | some tv =>
      match pyLen tv with
      | none => .error ()
      | some tlen =>
        let st :=
          if tlen < 10 then
            { st with warnings := st.warnings ++ [.textTooShort ln tlen] }
          else if tlen > 16384 then
            { st with warnings := st.warnings ++ [.textTooLong ln tlen] }
          else st
        match d.lookup "id" with
        | none => .error ()
        | some (JVal.jstr idv) =>
          let st :=
            if idPatternOk idv then st
            else { st with warnings := st.warnings ++ [.idSpecialChars ln idv] }
          .ok (st, true)
        | some _ => .error ()

/-- One maximal-munch substitution pass of `re.sub` with a single-character
class: every maximal run of characters satisfying `p` becomes the single
character `r`.  The Boolean argument records whether the previous character
was inside such a run. -/
def subRunsAux (p : Char → Bool) (r : Char) : Bool → List Char → List Char
  | _, [] => []
  | inRun, c :: cs =>
    if p c then
      if inRun then subRunsAux p r true cs else r :: subRunsAux p r true cs
    else c :: subRunsAux p r false cs

def subRuns (p : Char → Bool) (r : Char) (l : List Char) : List Char :=
  subRunsAux p r false l

/-- The method `_extract_pattern`: digit runs become `N`, then letter runs become `A`
(the second pass also merges the freshly inserted `N`s, as in the source,
since `N` is itself a letter).  ASCII classes, as in the claims' inputs. -/
def extract_pattern (s : String) : String :=
  (subRuns Char.isAlpha 'A' (subRuns Char.isDigit 'N' s.toList)).asString

/-- The method `_collect_stats`: append the text length, the id pattern and the source
pattern.  `len` / `re.sub` raise `TypeError` (`.error ()`) when the text has
no length or the id/source is not a string. -/
def collect_stats (st : VState) (d : Doc) : Except Unit VState :=
  match d.lookup "text" with
  | some tv =>
    match pyLen tv with
    | some tlen =>
      match d.lookup "id" with
      | some (JVal.jstr idv) =>
        match d.lookup "source" with
        | some (JVal.jstr sv) =>
          .ok { st with stats := { st.stats with
                  text_lengths := st.stats.text_lengths ++ [tlen]
                  id_patterns := st.stats.id_patterns ++ [extract_pattern idv]
                  source_patterns := st.stats.source_patterns ++ [extract_pattern sv] } }
        | _ => .error ()
      | _ => .error ()
    | none => .error ()
  | none => .error ()

/-- The body of the `for line_num, line in enumerate(f, 1)` loop in
`validate`: count the line; empty lines and JSON errors are counted and
skipped; for an object, run `_validate_document`, then on the valid branch
count it, check the id against `seen_ids` (counting and recording a duplicate,
or adding the id), and collect stats; on the invalid branch count a
missing-fields document.  The non-string-id branch after `valid` is
unreachable (`_validate_document` would already have raised). -/
def lineStep (st : VState) (ln : Nat) (l : Line) : Except Unit VState :=
  let st := { st with stats := { st.stats with total_lines := st.stats.total_lines + 1 } }
  match l with
  | .blank =>
      .ok { st with stats := { st.stats with empty_lines := st.stats.empty_lines + 1 } }
  | .malformed =>
      .ok { st with
              stats := { st.stats with json_errors := st.stats.json_errors + 1 }
              errors := st.errors ++ [.jsonError ln] }
  | .doc d =>
      match validate_document st ln d with
      | .error e => .error e
      | .ok (st2, valid) =>
        if valid then
          let st3 := { st2 with stats := { st2.stats with valid_docs := st2.stats.valid_docs + 1 } }
          match d.lookup "id" with
          | some (JVal.jstr idv) =>
            let st4 :=
              if st3.seen_ids.contains idv then
                { st3 with
                    stats := { st3.stats with duplicate_ids := st3.stats.duplicate_ids + 1 }
                    errors := st3.errors ++ [.duplicateId ln idv] }
              else { st3 with seen_ids := st3.seen_ids ++ [idv] }
            collect_stats st4 d
          | _ => .error ()
        else
          .ok { st2 with stats := { st2.stats with missing_fields := st2.stats.missing_fields + 1 } }

/-- The whole line loop, starting at line number `ln`.  A raised exception
propagates out of the loop. -/
def runLines (st : VState) (ln : Nat) : List Line → Except Unit VState
  | [] => .ok st
  | l :: ls =>
    match lineStep st ln l with
    | .error e => .error e
    | .ok st1 => runLines st1 (ln + 1) ls

/-- The `text_length_stats` block of `_generate_report` (only present when at least one
text length was collected): min, max, mean (exact, as a rational) and the
`sorted(lengths)[len(lengths) // 2]` median. -/
structure TextLengthStats where
  min : Nat
  max : Nat
  avg : ℚ
  median : Nat
deriving DecidableEq, Repr

/-- Insertion into an ascending list, for Python `sorted`. -/
def insertSorted (n : Nat) : List Nat → List Nat
  | [] => [n]
  | m :: ms => if n ≤ m then n :: m :: ms else m :: insertSorted n ms

def sortNat (l : List Nat) : List Nat := l.foldr insertSorted []

/-- The report returned by `validate` via `_generate_report`.
`validation_passed` is `len(self.errors) == 0`.  (The Python code stores
`text_length_stats` inside the copied `stats` dictionary; it is a separate
field here.) -/
structure Report where
  file_path : String
  validation_passed : Bool
  stats : VStats
  errors : List VErr
  warnings : List VWarn
  text_length_stats : Option TextLengthStats
deriving DecidableEq, Repr

def generate_report (path : String) (st : VState) : Report :=
  { file_path := path
    validation_passed := st.errors.isEmpty
    stats := st.stats
    errors := st.errors
    warnings := st.warnings
    text_length_stats :=
      match st.stats.text_lengths with
      | [] => none
      | x :: xs => some
          { min := xs.foldl Nat.min x
            max := xs.foldl Nat.max x
            avg := mkRat (Int.ofNat (x :: xs).sum) (x :: xs).length
            median := (sortNat (x :: xs)).getD ((x :: xs).length / 2) 0 } }

/-- The method `DataValidator.validate`: a missing file records one error and reports;
otherwise the line loop runs (any uncaught `TypeError` propagates out as
`.error ()`) and the report is generated from the final state. -/
def validate (path : String) (file : Option (List Line)) : Except Unit Report :=
  match file with
  | none => .ok (generate_report path { initState with errors := [.fileNotFound path] })
  | some lines =>
    match runLines initState 1 lines with
    | .error e => .error e
    | .ok st => .ok (generate_report path st)

end DataValidator

/-! ## Vectorizer (`src/vectorizer.py`, class `ChunkVectorizer`) -/

namespace ChunkVectorizer

/-- The character list after the last `/`, i.e. Python `os.path.basename`
(POSIX) and also `s.split('/')[-1]`. -/
def afterLastSlash (s : List Char) : List Char :=
  s.foldl (fun acc c => if c = '/' then [] else acc ++ [c]) []

/-- Python `s.replace(pat, repl)` on code-point lists: replace every
(leftmost, non-overlapping) occurrence of `pat`.  Only called with a
non-empty `pat`; Python with an empty pattern interleaves `repl` everywhere,
a case the source never exercises (here it falls through to the copy branch).
The fuel argument (one unit per input character suffices, since each step
consumes at least one character) keeps the recursion structural so that
terms evaluate by kernel reduction; the out-of-fuel branch is unreachable. -/
def replaceSubFuel (pat repl : List Char) : Nat → List Char → List Char
  | _, [] => []
  | 0, s => s
  | fuel + 1, c :: cs =>
    if pat ≠ [] ∧ pat.isPrefixOf (c :: cs) then
      repl ++ replaceSubFuel pat repl fuel ((c :: cs).drop pat.length)
    else
      c :: replaceSubFuel pat repl fuel cs

def replaceSub (pat repl : List Char) (s : List Char) : List Char :=
  replaceSubFuel pat repl s.length s

/-- The expression `model_name.split('/')[-1] if '/' in model_name else model_name`. -/
def modelShortName (m : List Char) : List Char :=
  if '/' ∈ m then afterLastSlash m else m

/-- The collection-name computation of `_setup_collection`:
`os.path.basename(input_file).replace('.jsonl', '')`, joined by `_` to the
model short name, truncated to 63 characters when longer. -/
def collectionNameChars (input_file model_name : List Char) : List Char :=
  let base := replaceSub ".jsonl".toList [] (afterLastSlash input_file)
  let name := base ++ '_' :: modelShortName model_name
  if name.length > 63 then name.take 63 else name

def collectionName (input_file model_name : String) : String :=
  (collectionNameChars input_file.toList model_name.toList).asString

/-- One stored row of a ChromaDB collection, as assembled by
`process_and_store_chunks`: `chunk['id']`, its embedding, `chunk['text']` as
the document, and `{'source': chunk['source']}` as the metadata.  Embeddings
are an opaque type `E`; the field values are whatever the JSON held (the
store's own validation of non-string ids is external). -/
structure Row (E : Type) where
  id : JVal
  embedding : E
  document : JVal
  source : JVal
deriving DecidableEq, Repr

/-- The modelled external state the vectorizer mutates: the ChromaDB
collections (name to rows) and the `artifacts/vector_stores/collections.txt`
log file, kept as the list of collection names appended (the timestamp and
model/task text of each appended line is wall-clock data). -/
structure VecDB (E : Type) where
  collections : List (String × List (Row E))
  log : List String
deriving DecidableEq, Repr

/-- The call `client.delete_collection(name)` wrapped in `try/except: pass`: removes
the collection when present, does nothing otherwise. -/
def deleteCollection (db : List (String × List (Row E))) (name : String) :
    List (String × List (Row E)) :=
  db.filter (fun c => c.1 ≠ name)

/-- The method `_setup_collection`: derive the name, delete any existing collection of
that name, create it empty, and append a line to the collections log.
Returns the new state and the derived name. -/
def setup_collection (db : VecDB E) (input_file model_name : String) :
    VecDB E × String :=
  let name := collectionName input_file model_name
  ({ collections := (name, []) :: deleteCollection db.collections name
     log := db.log ++ [name] }, name)

/-- The method `load_chunks`: skip blank lines, `json.loads` each other line
(`.error ()` when it raises, aborting the whole load), collect in order. -/
def load_chunks : List Line → Except Unit (List Doc)
  | [] => .ok []
  | .blank :: ls => load_chunks ls
  | .malformed :: _ => .error ()
  | .doc d :: ls =>
    match load_chunks ls with
    | .ok ds => .ok (d :: ds)
    | .error e => .error e

/-- The `range(0, len(l), B)` slicing loop shared by the embedding and the
storage passes: consecutive slices `l[i:i+B]`.  Python raises `ValueError`
on step `B = 0`; the vectorizer is only run with `B ≥ 1`.  The fuel argument
(one unit per element suffices, since each slice consumes at least one
element) keeps the recursion structural; the out-of-fuel and `B = 0`
branches are unreachable in the modelled runs. -/
def chunkListFuel {α : Type} (B : Nat) : Nat → List α → List (List α)
  | _, [] => []
  | 0, _ :: _ => []
  | fuel + 1, l =>
    if B = 0 then [] else l.take B :: chunkListFuel B fuel (l.drop B)

def chunkList {α : Type} (B : Nat) (l : List α) : List (List α) :=
  chunkListFuel B l.length l

/-- The per-chunk row: `chunk['id']` / `chunk['text']` / `chunk['source']`
dictionary accesses (a `KeyError`, `.error ()`, when absent — raised while
building the id/text/metadata lists, before anything is stored), with the
text embedded by the external model `embed`. -/
def toRow (embed : JVal → E) (d : Doc) : Except Unit (Row E) :=
  match d.lookup "id", d.lookup "text", d.lookup "source" with
  | some i, some t, some s => .ok ⟨i, embed t, t, s⟩
  | _, _, _ => .error ()

/-- One `collection.add(...)` call: append the batch's rows to the named
collection. -/
def addRows (db : List (String × List (Row E))) (name : String)
    (rows : List (Row E)) : List (String × List (Row E)) :=
  db.map (fun c => if c.1 = name then (c.1, c.2 ++ rows) else c)

/-- The method `process_and_store_chunks`: an empty chunk list returns without storing;
otherwise the parallel id/text/metadata lists are built (KeyError aborts
before any write), the embedding pass runs batch by batch, and the storage
pass issues one `add` per batch slice. -/
def process_and_store_chunks (embed : JVal → E) (db : VecDB E) (name : String)
    (chunks : List Doc) (B : Nat) : Except Unit (VecDB E) :=
  if chunks = [] then .ok db
  else
    match chunks.mapM (toRow embed) with
    | .error e => .error e
    | .ok rows =>
      .ok { db with collections :=
              (chunkList B rows).foldl (fun d batch => addRows d name batch) db.collections }

/-- One whole vectorizer run: construction (`__init__`) sets up the collection
(and writes the log) before the input file is ever opened; `run` then loads
the chunks (`FileNotFoundError` when the input path does not exist — the
`file` argument is `none` — and a decode error on a malformed line, both
re-raised) and processes them.  Returns the final external state and whether
the run succeeded. -/
def vectorizerRun (embed : JVal → E) (db : VecDB E) (input_file model_name : String)
    (file : Option (List Line)) (B : Nat) : VecDB E × Except Unit Unit :=
  let s := setup_collection db input_file model_name
  match file with
  | none => (s.1, .error ())
  | some lines =>
    match load_chunks lines with
    | .error e => (s.1, .error e)
    | .ok chunks =>
      match process_and_store_chunks embed s.1 s.2 chunks B with
      | .error e => (s.1, .error e)
      | .ok db2 => (db2, .ok ())

end ChunkVectorizer

/-! ## MCP server (`mcp_server/chroma_mcp_server_minimal.py`) -/

namespace McpServer

/-- The metadata dictionary stored by `remember`:
`{"source": "user_memory", "timestamp_utc": datetime.utcnow().isoformat()}`. -/
structure MemMeta where
  source : String
  timestamp_utc : String
deriving DecidableEq, Repr

/-- One row of the memory collection. -/
structure MemRow (E : Type) where
  id : String
  embedding : E
  document : String
  metadata : MemMeta
deriving DecidableEq, Repr

/-- The dictionary returned by `remember`: `success`, and `memory_id` when
successful (`error` text is not modelled beyond failure). -/
structure RememberResult where
  success : Bool
  memory_id : Option String
deriving DecidableEq, Repr

/-- The `remember` tool: build `memory_id = "memory_" + uuid4()` (the freshly
drawn uuid token is a parameter — its uniqueness is the generator's
property), encode the text with the external model, and `add` one row with
the text as document and a source/timestamp metadata.  A raising `add`
(e.g. on an id collision) is caught by the `except` and reported as
`success: False` with the collection unchanged. -/
def remember (encode : String → E) (token now : String)
    (mem : List (MemRow E)) (memory_text : String) :
    List (MemRow E) × RememberResult :=
  let memory_id := "memory_" ++ token
  if mem.any (fun r => r.id = memory_id) then
    (mem, ⟨false, none⟩)
  else
    (mem ++ [⟨memory_id, encode memory_text, memory_text, ⟨"user_memory", now⟩⟩],
     ⟨true, some memory_id⟩)

/-- The four tools the server exposes (`@mcp.tool()` functions):
`list_collections`, `query`, `search_memory`, `remember`. -/
inductive McpOp where
  | listCollections
  | queryMain (query_text : String) (n_results : Nat)
  | searchMemory (query_text : String) (n_results : Nat)
  | rememberText (memory_text : String)
deriving DecidableEq, Repr

/-- The memory collection after one tool call.  `list_collections`, `query`
and `search_memory` only read (their result payloads come from the external
store's query method); only `remember` writes, via `memory_collection.add`. -/
def memoryAfter (encode : String → E) (token now : String)
    (mem : List (MemRow E)) : McpOp → List (MemRow E)
  | .rememberText t => (remember encode token now mem t).1
  | _ => mem

end McpServer

/-! ## Derived predicates and helpers used by the statements -/

instance {ε α : Type} [DecidableEq ε] [DecidableEq α] : DecidableEq (Except ε α) :=
  fun a b =>
    match a, b with
    | .error e1, .error e2 =>
      if h : e1 = e2 then .isTrue (by rw [h]) else .isFalse (by intro hc; cases hc; exact h rfl)
    | .ok a1, .ok a2 =>
      if h : a1 = a2 then .isTrue (by rw [h]) else .isFalse (by intro hc; cases hc; exact h rfl)
    | .error _, .ok _ => .isFalse (by intro hc; cases hc)
    | .ok _, .error _ => .isFalse (by intro hc; cases hc)

namespace DataValidator

/-- A line that `validate` counts as a valid document: a parsed object with no
missing required field. -/
def Line.isValidDoc : Line → Bool
  | .doc d => (missingOf d).isEmpty
  | _ => false

/-- A line that `validate` counts under `missing_fields`. -/
def Line.isMissingDoc : Line → Bool
  | .doc d => !(missingOf d).isEmpty
  | _ => false

/-- A parsed object whose three required fields are all present strings — the
shape of a "well-formed record" in the claims.  On such documents (and on
blank/malformed/missing-field lines) the validator never raises. -/
def isStrField (d : Doc) (f : String) : Bool :=
  match d.lookup f with
  | some (JVal.jstr _) => true
  | _ => false

def Line.isWellFormed : Line → Bool
  | .doc d => isStrField d "id" && isStrField d "text" && isStrField d "source"
  | _ => false

/-- The id contributed to the duplicate check by one line: valid documents
contribute their id (a string whenever the run completes). -/
def validIdOf : Line → Option String
  | .doc d =>
    if (missingOf d).isEmpty then
      match d.lookup "id" with
      | some (JVal.jstr s) => some s
      | _ => none
    else none
  | _ => none

/-- The ids of the valid documents, in file order. -/
def validIdsOf (ls : List Line) : List String := ls.filterMap validIdOf

/-- The `seen_ids` set after feeding it a list of ids. -/
def seenFold (seen : List String) : List String → List String
  | [] => seen
  | i :: is => seenFold (if seen.contains i then seen else seen ++ [i]) is

/-- The number of duplicate hits when feeding ids into a growing seen-set:
exactly how `validate` advances `stats['duplicate_ids']`. -/
def dupCount (seen : List String) : List String → Nat
  | [] => 0
  | i :: is => if seen.contains i then 1 + dupCount seen is else dupCount (seen ++ [i]) is

end DataValidator

namespace ChunkVectorizer

/-- The parsed objects of the non-blank lines, in file order: the value
`load_chunks` returns when no line is malformed. -/
def docsOf (ls : List Line) : List Doc :=
  ls.filterMap fun l =>
    match l with
    | .doc d => some d
    | _ => none

/-- The call `client.get_collection(name)` as an observation: the rows currently
stored under a collection name. -/
def getCollection (db : VecDB E) (name : String) : Option (List (Row E)) :=
  db.collections.lookup name

/-- The collection name exactly as the claim words it: the base name with the
`.jsonl` SUFFIX removed (only a trailing occurrence), joined by `_` to the
model short name, truncated to 63 characters.  This is the claim's reading,
kept for comparison with `collectionNameChars` (the code removes every
occurrence of the substring, not only a suffix). -/
def collectionNameClaimChars (input_file model_name : List Char) : List Char :=
  let base0 := afterLastSlash input_file
  let base := if ".jsonl".toList.isSuffixOf base0 then base0.take (base0.length - 6) else base0
  (base ++ '_' :: afterLastSlash model_name).take 63

/-- The collection name as the amended claim words it: every occurrence of
the substring `.jsonl` in the base name is removed (not only a suffix), the
result is joined by `_` to the substring of the model name after the last
`/` (the whole model name when it has no `/`), and the result is truncated
to at most 63 characters. -/
def collectionNameAmendedChars (input_file model_name : List Char) : List Char :=
  (replaceSub ".jsonl".toList [] (afterLastSlash input_file)
      ++ '_' :: afterLastSlash model_name).take 63

end ChunkVectorizer

/-! ## Concrete example data for witnesses and counterexamples -/

/-- A well-formed record with a given id. -/
def wfDoc (i : String) : Line :=
  Line.doc [("id", JVal.jstr i), ("text", JVal.jstr "hello world text"),
            ("source", JVal.jstr "src/a.txt")]

/-- One malformed line followed by nine well-formed records with distinct ids:
an instance of the file family of the first validator claim. -/
def exFileC1 : List Line :=
  Line.malformed ::
    (["id0", "id1", "id2", "id3", "id4", "id5", "id6", "id7", "id8"].map wfDoc)

/-- A malformed line next to a structurally valid record whose `id` is a
number: `json.loads` accepts the record, `_validate_document` then raises
`TypeError` in `re.match`. -/
def exFileC6 : List Line :=
  [Line.malformed,
   Line.doc [("id", JVal.jnum), ("text", JVal.jstr "hello"), ("source", JVal.jstr "s")]]

/-- A malformed line among well-formed records (all-string fields), on which
the validator completes. -/
def exFileC6ok : List Line := [Line.malformed, wfDoc "a", Line.blank, wfDoc "b"]

/-- Two valid records sharing id `doc_000001`, one other id distinct. -/
def exFileC8 : List Line := [wfDoc "doc_000001", wfDoc "other", wfDoc "doc_000001"]

/-- The report of a run, as a total function (the default is never reached
for the runs the witnesses evaluate). -/
def reportOf (path : String) (file : Option (List Line)) : DataValidator.Report :=
  (DataValidator.validate path file).toOption.getD
    (DataValidator.generate_report path DataValidator.initState)

/-- A database holding one collection `data_m` with one row, as it would be
left by an earlier vectorizer run on `data.jsonl` with model `m`. -/
def exDB : ChunkVectorizer.VecDB Nat :=
  { collections := [("data_m", [⟨JVal.jstr "a", 0, JVal.jstr "t", JVal.jstr "s"⟩])]
    log := [] }

def exEmptyDB : ChunkVectorizer.VecDB Nat := { collections := [], log := [] }

/-- A loadable file: two records around a blank line. -/
def exFileLoad : List Line := [wfDoc "a", Line.blank, wfDoc "b"]

/-- A second loadable file with a single record. -/
def exFileLoad2 : List Line := [wfDoc "z"]

/-! # Theorems

First the structural lemmas about the validator's single steps, then the
loop invariants, then the claim theorems. -/

namespace DataValidator

theorem checkFieldStep_fst (d : Doc) (ln : Nat) (acc : List String × List VWarn)
    (f : String) :
    (checkFieldStep d ln acc f).1 = acc.1 ++ (if (d.lookup f).isNone then [f] else []) := by
  unfold checkFieldStep
  cases h : d.lookup f with
  | none => simp
  | some v => cases v <;> first | (simp; split <;> simp) | simp

theorem checkFields_fst (d : Doc) (ln : Nat) : (checkFields d ln).1 = missingOf d := by
  simp only [checkFields, required_fields, List.foldl_cons, List.foldl_nil]
  rw [checkFieldStep_fst, checkFieldStep_fst, checkFieldStep_fst]
  simp only [missingOf, required_fields]
  by_cases h1 : (d.lookup "id").isNone <;>
    by_cases h2 : (d.lookup "text").isNone <;>
      by_cases h3 : (d.lookup "source").isNone <;>
        simp [h1, h2, h3, List.filter]

theorem validate_document_ok {st : VState} {ln : Nat} {d : Doc} {st2 : VState}
    {valid : Bool} (h : validate_document st ln d = .ok (st2, valid)) :
    valid = (missingOf d).isEmpty ∧
    (valid = true → ∃ s, d.lookup "id" = some (JVal.jstr s)) ∧
    st2.stats = st.stats ∧ st2.seen_ids = st.seen_ids ∧
    ∃ es, st2.errors = st.errors ++ es := by
  simp only [validate_document] at h
  rw [checkFields_fst] at h
  split at h
  case isTrue hno =>
    injection h with h'
    injection h' with ha hb
    subst ha; subst hb
    refine ⟨?_, ?_, ?_, ?_, ?_⟩
    · cases hmc : missingOf d with
      | nil => exact absurd hmc hno
      | cons a l => simp
    · intro hc; cases hc
    · rfl
    · rfl
    · exact ⟨[.missingFields ln (missingOf d)], rfl⟩
  case isFalse hno =>
    have hm : missingOf d = [] := not_not.mp hno
    rcases htv : d.lookup "text" with _ | tv <;> simp only [htv] at h
    · exact Except.noConfusion h
    rcases hpl : pyLen tv with _ | tlen <;> simp only [hpl] at h
    · exact Except.noConfusion h
    rcases hid : d.lookup "id" with _ | v <;> simp only [hid] at h
    · exact Except.noConfusion h
    cases v <;> try exact Except.noConfusion h
    case jstr s =>
      injection h with h'
      injection h' with ha hb
      subst ha; subst hb
      refine ⟨by simp [hm], fun _ => ⟨s, by simp [hid]⟩, ?_, ?_, ?_⟩
      · split <;> split <;> first | rfl | (split <;> rfl)
      · split <;> split <;> first | rfl | (split <;> rfl)
      · split <;> split <;> try split
        all_goals exact ⟨[], by simp⟩

theorem collect_stats_ok {st st' : VState} {d : Doc} (h : collect_stats st d = .ok st') :
    ∃ a b c, st' = { st with stats := { st.stats with
        text_lengths := a, id_patterns := b, source_patterns := c } } := by
  unfold collect_stats at h
  rcases htv : d.lookup "text" with _ | tv <;> simp only [htv] at h
  · exact Except.noConfusion h
  rcases hpl : pyLen tv with _ | tlen <;> simp only [hpl] at h
  · exact Except.noConfusion h
  rcases hid : d.lookup "id" with _ | v <;> simp only [hid] at h
  · exact Except.noConfusion h
  cases v <;> try exact Except.noConfusion h
  case jstr s =>
    rcases hsv : d.lookup "source" with _ | w <;> simp only [hsv] at h
    · exact Except.noConfusion h
    cases w <;> try exact Except.noConfusion h
    case jstr s2 =>
      injection h with h'
      exact ⟨_, _, _, h'.symm⟩

end DataValidator

namespace DataValidator

theorem validIdsOf_nil : validIdsOf [] = [] := rfl

theorem validIdsOf_cons (l : Line) (ls : List Line) :
    validIdsOf (l :: ls) = (validIdOf l).toList ++ validIdsOf ls := by
  simp only [validIdsOf, List.filterMap_cons]
  cases h : validIdOf l <;> simp

theorem seenFold_append (a b : List String) :
    ∀ seen, seenFold seen (a ++ b) = seenFold (seenFold seen a) b := by
  induction a with
  | nil => intro seen; simp [seenFold]
  | cons i is ih => intro seen; simp only [List.cons_append, seenFold]; exact ih _

theorem dupCount_append (a b : List String) :
    ∀ seen, dupCount seen (a ++ b) = dupCount seen a + dupCount (seenFold seen a) b := by
  induction a with
  | nil => intro seen; simp [seenFold, dupCount]
  | cons i is ih =>
    intro seen
    simp only [List.cons_append, dupCount, seenFold, List.append_eq]
    split <;> rw [ih] <;> omega

theorem lineStep_ok {st : VState} {ln : Nat} {l : Line} {st' : VState}
    (h : lineStep st ln l = .ok st') :
    st'.stats.total_lines = st.stats.total_lines + 1 ∧
    st'.stats.empty_lines = st.stats.empty_lines + (if l.isBlank then 1 else 0) ∧
    st'.stats.json_errors = st.stats.json_errors + (if l.isMalformed then 1 else 0) ∧
    st'.stats.valid_docs = st.stats.valid_docs + (if Line.isValidDoc l then 1 else 0) ∧
    st'.stats.missing_fields =
      st.stats.missing_fields + (if Line.isMissingDoc l then 1 else 0) ∧
    (∃ es, st'.errors = st.errors ++ es ∧ (l.isMalformed = true → 1 ≤ es.length)) ∧
    st'.seen_ids = seenFold st.seen_ids (validIdOf l).toList ∧
    st'.stats.duplicate_ids =
      st.stats.duplicate_ids + dupCount st.seen_ids (validIdOf l).toList := by
  cases l with
  | blank =>
    simp only [lineStep] at h
    injection h with h'
    subst h'
    refine ⟨by simp, by simp [Line.isBlank], by simp [Line.isMalformed],
      by simp [Line.isValidDoc], by simp [Line.isMissingDoc],
      ⟨[], by simp, by simp [Line.isMalformed]⟩,
      by simp [validIdOf, seenFold], by simp [validIdOf, dupCount]⟩
  | malformed =>
    simp only [lineStep] at h
    injection h with h'
    subst h'
    refine ⟨by simp, by simp [Line.isBlank], by simp [Line.isMalformed],
      by simp [Line.isValidDoc], by simp [Line.isMissingDoc],
      ⟨[.jsonError ln], by simp, by simp⟩,
      by simp [validIdOf, seenFold], by simp [validIdOf, dupCount]⟩
  | doc d =>
    simp only [lineStep] at h
    cases hvd : validate_document
        { st with stats := { st.stats with total_lines := st.stats.total_lines + 1 } } ln d with
    | error e => rw [hvd] at h; exact Except.noConfusion h
    | ok p =>
      obtain ⟨st2, valid⟩ := p
      rw [hvd] at h
      obtain ⟨hval, hidv, hstats, hseen, es1, hes⟩ := validate_document_ok hvd
      cases valid with
      | false =>
        simp only [Bool.false_eq_true, if_false] at h
        injection h with h'
        subst h'
        have hmf : (missingOf d).isEmpty = false := hval.symm
        refine ⟨?_, ?_, ?_, ?_, ?_, ⟨es1, ?_, ?_⟩, ?_, ?_⟩
        · simp [hstats]
        · simp [hstats, Line.isBlank]
        · simp [hstats, Line.isMalformed]
        · simp [hstats, Line.isValidDoc, hmf]
        · simp [hstats, Line.isMissingDoc, hmf]
        · simpa using hes
        · simp [Line.isMalformed]
        · simp [hseen, validIdOf, hmf, seenFold]
        · simp [hstats, validIdOf, hmf, dupCount]
      | true =>
        simp only [if_true] at h
        obtain ⟨s, hid⟩ := hidv rfl
        simp only [hid] at h
        have hmt : (missingOf d).isEmpty = true := hval.symm
        have hvid : validIdOf (Line.doc d) = some s := by
          simp [validIdOf, hmt, hid]
        by_cases hct : st2.seen_ids.contains s
        · simp only [hct, if_true] at h
          obtain ⟨a, b, c, hcs⟩ := collect_stats_ok h
          subst hcs
          refine ⟨?_, ?_, ?_, ?_, ?_, ⟨es1 ++ [.duplicateId ln s], ?_, ?_⟩, ?_, ?_⟩
          · simp [hstats]
          · simp [hstats, Line.isBlank]
          · simp [hstats, Line.isMalformed]
          · simp [hstats, Line.isValidDoc, hmt]
          · simp [hstats, Line.isMissingDoc, hmt]
          · simp [hes]
          · simp [Line.isMalformed]
          · rw [hseen] at hct
            have hmem : s ∈ st.seen_ids := by simpa using hct
            simp [hvid, seenFold, hseen, hmem]
          · rw [hseen] at hct
            have hmem : s ∈ st.seen_ids := by simpa using hct
            simp [hvid, dupCount, hstats, hmem]
        · simp only [hct, if_false] at h
          obtain ⟨a, b, c, hcs⟩ := collect_stats_ok h
          subst hcs
          refine ⟨?_, ?_, ?_, ?_, ?_, ⟨es1, ?_, ?_⟩, ?_, ?_⟩
          · simp [hstats]
          · simp [hstats, Line.isBlank]
          · simp [hstats, Line.isMalformed]
          · simp [hstats, Line.isValidDoc, hmt]
          · simp [hstats, Line.isMissingDoc, hmt]
          · simp [hes]
          · simp [Line.isMalformed]
          · rw [hseen] at hct
            have hmem : s ∉ st.seen_ids := by simpa using hct
            simp [hvid, seenFold, hseen, hmem]
          · rw [hseen] at hct
            have hmem : s ∉ st.seen_ids := by simpa using hct
            simp [hvid, dupCount, hstats, hmem]

end DataValidator

namespace DataValidator

/-- The loop invariant of `validate`: a completed run counts each line kind
with `countP`, only appends to `errors` (at least one entry per malformed
line), and advances `seen_ids` / `duplicate_ids` exactly as the
seen-set fold over the valid documents' ids. -/
theorem runLines_ok {ls : List Line} : ∀ {st : VState} {ln : Nat} {st' : VState},
    runLines st ln ls = .ok st' →
    st'.stats.total_lines = st.stats.total_lines + ls.length ∧
    st'.stats.empty_lines = st.stats.empty_lines + ls.countP Line.isBlank ∧
    st'.stats.json_errors = st.stats.json_errors + ls.countP Line.isMalformed ∧
    st'.stats.valid_docs = st.stats.valid_docs + ls.countP Line.isValidDoc ∧
    st'.stats.missing_fields = st.stats.missing_fields + ls.countP Line.isMissingDoc ∧
    (∃ es, st'.errors = st.errors ++ es ∧ ls.countP Line.isMalformed ≤ es.length) ∧
    st'.seen_ids = seenFold st.seen_ids (validIdsOf ls) ∧
    st'.stats.duplicate_ids =
      st.stats.duplicate_ids + dupCount st.seen_ids (validIdsOf ls) := by
  induction ls with
  | nil =>
    intro st ln st' h
    simp only [runLines] at h
    injection h with h'
    subst h'
    exact ⟨by simp, by simp, by simp, by simp, by simp, ⟨[], by simp, by simp⟩,
      by simp [validIdsOf, seenFold], by simp [validIdsOf, dupCount]⟩
  | cons l ls ih =>
    intro st ln st' h
    simp only [runLines] at h
    cases hls : lineStep st ln l with
    | error e => rw [hls] at h; exact Except.noConfusion h
    | ok st1 =>
      rw [hls] at h
      obtain ⟨t1, e1, j1, v1, m1, ⟨es1, hes1, hb1⟩, s1, d1⟩ := lineStep_ok hls
      obtain ⟨t2, e2, j2, v2, m2, ⟨es2, hes2, hb2⟩, s2, d2⟩ := ih h
      have hvc : validIdsOf (l :: ls) = (validIdOf l).toList ++ validIdsOf ls :=
        validIdsOf_cons l ls
      refine ⟨?_, ?_, ?_, ?_, ?_, ⟨es1 ++ es2, ?_, ?_⟩, ?_, ?_⟩
      · rw [t2, t1]; simp; omega
      · rw [e2, e1, List.countP_cons]; omega
      · rw [j2, j1, List.countP_cons]; omega
      · rw [v2, v1, List.countP_cons]; omega
      · rw [m2, m1, List.countP_cons]; omega
      · rw [hes2, hes1, List.append_assoc]
      · rw [List.countP_cons, List.length_append]
        cases hml : l.isMalformed with
        | true =>
          have := hb1 hml
          simp only [hml, if_true]
          omega
        | false =>
          simp only [hml, Bool.false_eq_true, if_false]
          omega
      · rw [s2, s1, hvc, seenFold_append]
      · rw [d2, d1, s1, hvc, dupCount_append]
        omega

/-- Every line is counted in exactly one of the four buckets. -/
theorem countP_partition (ls : List Line) :
    ls.countP Line.isBlank + ls.countP Line.isMalformed + ls.countP Line.isValidDoc +
      ls.countP Line.isMissingDoc = ls.length := by
  induction ls with
  | nil => simp
  | cons l ls ih =>
    simp only [List.countP_cons, List.length_cons]
    cases l with
    | blank =>
      simp [Line.isBlank, Line.isMalformed, Line.isValidDoc, Line.isMissingDoc]
      omega
    | malformed =>
      simp [Line.isBlank, Line.isMalformed, Line.isValidDoc, Line.isMissingDoc]
      omega
    | doc d =>
      simp only [Line.isBlank, Line.isMalformed, Line.isValidDoc, Line.isMissingDoc]
      by_cases hm : (missingOf d).isEmpty <;> simp [hm] <;> omega

theorem isStrField_lookup {d : Doc} {f : String} (h : isStrField d f = true) :
    ∃ s, d.lookup f = some (JVal.jstr s) := by
  unfold isStrField at h
  rcases hl : d.lookup f with _ | v
  · rw [hl] at h; cases h
  · cases v <;> rw [hl] at h <;> first | exact ⟨_, rfl⟩ | cases h

theorem validate_document_invalid {st : VState} {ln : Nat} {d : Doc}
    (h : (missingOf d).isEmpty = false) :
    validate_document st ln d =
      .ok
        ({ st with
            warnings := st.warnings ++ (checkFields d ln).2,
            errors := st.errors ++ [.missingFields ln (missingOf d)] },
         false) := by
  have hne : missingOf d ≠ [] := by
    intro hc; rw [hc] at h; cases h
  simp only [validate_document]
  rw [checkFields_fst, if_pos hne]

theorem validate_document_wf {st : VState} {ln : Nat} {d : Doc} {si tx sv : String}
    (hid : d.lookup "id" = some (JVal.jstr si))
    (htx : d.lookup "text" = some (JVal.jstr tx))
    (hsv : d.lookup "source" = some (JVal.jstr sv)) :
    ∃ st2, validate_document st ln d = .ok (st2, true) := by
  have hm : missingOf d = [] := by
    simp [missingOf, required_fields, List.filter, hid, htx, hsv]
  simp only [validate_document]
  rw [checkFields_fst, hm]
  simp only [ne_eq, not_true_eq_false, if_false, htx, pyLen, hid]
  exact ⟨_, rfl⟩

theorem collect_stats_total {st : VState} {d : Doc} {si tx sv : String}
    (hid : d.lookup "id" = some (JVal.jstr si))
    (htx : d.lookup "text" = some (JVal.jstr tx))
    (hsv : d.lookup "source" = some (JVal.jstr sv)) :
    ∃ st', collect_stats st d = .ok st' := by
  unfold collect_stats
  rw [htx]
  simp only [pyLen, hid, hsv]
  exact ⟨_, rfl⟩

theorem lineStep_total {st : VState} {ln : Nat} {l : Line}
    (h : l.isBlank = true ∨ l.isMalformed = true ∨ Line.isWellFormed l = true ∨
         Line.isMissingDoc l = true) :
    ∃ st', lineStep st ln l = .ok st' := by
  cases l with
  | blank => exact ⟨_, rfl⟩
  | malformed => exact ⟨_, rfl⟩
  | doc d =>
    rcases h with h | h | h | h
    · cases h
    · cases h
    · simp only [Line.isWellFormed, Bool.and_eq_true] at h
      obtain ⟨⟨hif, htf⟩, hsf⟩ := h
      obtain ⟨si, hid⟩ := isStrField_lookup hif
      obtain ⟨tx, htx⟩ := isStrField_lookup htf
      obtain ⟨sv, hsv⟩ := isStrField_lookup hsf
      simp only [lineStep]
      obtain ⟨st2, hvd⟩ := @validate_document_wf
        { st with stats := { st.stats with total_lines := st.stats.total_lines + 1 } }
        ln d si tx sv hid htx hsv
      rw [hvd]
      simp only [if_true, hid]
      exact collect_stats_total hid htx hsv
    · simp only [Line.isMissingDoc, Bool.not_eq_true'] at h
      simp only [lineStep]
      rw [validate_document_invalid h]
      exact ⟨_, rfl⟩

theorem runLines_total {ls : List Line} : ∀ {st : VState} {ln : Nat},
    (∀ l ∈ ls, l.isBlank = true ∨ l.isMalformed = true ∨ Line.isWellFormed l = true ∨
       Line.isMissingDoc l = true) →
    ∃ st', runLines st ln ls = .ok st' := by
  induction ls with
  | nil => intro st ln _; exact ⟨st, rfl⟩
  | cons l ls ih =>
    intro st ln h
    obtain ⟨st1, h1⟩ := @lineStep_total st ln l (h l (by simp))
    obtain ⟨st', h2⟩ := ih (fun x hx => h x (by simp [hx]))
    refine ⟨st', ?_⟩
    simp only [runLines]
    rw [h1]
    exact h2

end DataValidator


namespace DataValidator

/-- A list of pairwise-distinct ids none of which was seen yet produces no
duplicate hits. -/
theorem dupCount_eq_zero : ∀ {ids seen : List String},
    ids.Nodup → (∀ x ∈ ids, x ∉ seen) → dupCount seen ids = 0 := by
  intro ids
  induction ids with
  | nil => intro seen _ _; rfl
  | cons i is ih =>
    intro seen hnd hdisj
    have hni : i ∉ seen := hdisj i (by simp)
    have hc : seen.contains i = false := by simpa using hni
    simp only [dupCount, hc, Bool.false_eq_true, if_false]
    refine ih (List.nodup_cons.mp hnd).2 ?_
    intro x hx
    simp only [List.mem_append, List.mem_singleton]
    rintro (hxs | rfl)
    · exact hdisj x (by simp [hx]) hxs
    · exact (List.nodup_cons.mp hnd).1 hx

theorem mem_seenFold : ∀ (ids seen : List String) (x : String),
    x ∈ seenFold seen ids ↔ x ∈ seen ∨ x ∈ ids := by
  intro ids
  induction ids with
  | nil => intro seen x; simp [seenFold]
  | cons i is ih =>
    intro seen x
    simp only [seenFold]
    by_cases hc : seen.contains i = true
    · have hmem : i ∈ seen := by simpa using hc
      rw [if_pos hc, ih]
      simp only [List.mem_cons]
      constructor
      · rintro (hs | hi)
        · exact Or.inl hs
        · exact Or.inr (Or.inr hi)
      · rintro (hs | rfl | hi)
        · exact Or.inl hs
        · exact Or.inl hmem
        · exact Or.inr hi
    · rw [if_neg hc, ih]
      simp only [List.mem_append, List.mem_singleton, List.mem_cons]
      tauto

end DataValidator

namespace ChunkVectorizer

/-- The loader aborts whenever some line is malformed (`json.loads`
raises and the exception propagates). -/
theorem load_chunks_error : ∀ {ls : List Line}, Line.malformed ∈ ls →
    load_chunks ls = .error () := by
  intro ls
  induction ls with
  | nil => intro h; cases h
  | cons l ls ih =>
    intro h
    cases l with
    | blank =>
      have h' : Line.malformed ∈ ls := by simpa using h
      simp only [load_chunks]
      exact ih h'
    | malformed => rfl
    | doc d =>
      have h' : Line.malformed ∈ ls := by simpa using h
      simp only [load_chunks, ih h']

/-- With no malformed line, `load_chunks` returns the parsed objects of the
non-blank lines, in file order. -/
theorem load_chunks_ok : ∀ {ls : List Line}, (∀ l ∈ ls, l.isMalformed = false) →
    load_chunks ls = .ok (docsOf ls) := by
  intro ls
  induction ls with
  | nil => intro _; rfl
  | cons l ls ih =>
    intro h
    have ht := ih (fun x hx => h x (by simp [hx]))
    cases l with
    | blank => simp only [load_chunks, ht, docsOf, List.filterMap_cons]
    | malformed => have := h Line.malformed (by simp); simp [Line.isMalformed] at this
    | doc d => simp only [load_chunks, ht, docsOf, List.filterMap_cons]

theorem docsOf_length : ∀ {ls : List Line}, (∀ l ∈ ls, l.isMalformed = false) →
    (docsOf ls).length = ls.countP (fun l => !l.isBlank) := by
  intro ls
  induction ls with
  | nil => intro _; rfl
  | cons l ls ih =>
    intro h
    have ht := ih (fun x hx => h x (by simp [hx]))
    cases l with
    | blank =>
      simp [docsOf, List.filterMap_cons, List.countP_cons, Line.isBlank] at ht ⊢
      omega
    | malformed => have := h Line.malformed (by simp); simp [Line.isMalformed] at this
    | doc d =>
      simp [docsOf, List.filterMap_cons, List.countP_cons, Line.isBlank] at ht ⊢
      omega

theorem chunkList_nil {α : Type} (B : Nat) : chunkList B ([] : List α) = [] := rfl

theorem chunkListFuel_congr {α : Type} {B : Nat} : ∀ {f1 : Nat} {f2 : Nat} {l : List α},
    l.length ≤ f1 → l.length ≤ f2 → chunkListFuel B f1 l = chunkListFuel B f2 l := by
  intro f1
  induction f1 with
  | zero =>
    intro f2 l h1 _
    have : l = [] := List.eq_nil_of_length_eq_zero (Nat.le_zero.mp h1)
    subst this
    cases f2 <;> rfl
  | succ f ih =>
    intro f2 l h1 h2
    cases l with
    | nil => cases f2 <;> rfl
    | cons c cs =>
      cases f2 with
      | zero => simp at h2
      | succ f2' =>
        simp only [chunkListFuel]
        by_cases hB : B = 0
        · simp [hB]
        · simp only [hB, if_false]
          congr 1
          refine ih ?_ ?_ <;>
            · simp only [List.length_drop, List.length_cons] at *
              omega

theorem chunkList_cons {α : Type} {B : Nat} (hB : B ≠ 0) {l : List α} (hl : l ≠ []) :
    chunkList B l = l.take B :: chunkList B (l.drop B) := by
  cases l with
  | nil => exact absurd rfl hl
  | cons c cs =>
    show chunkListFuel B (cs.length + 1) (c :: cs) = _
    simp only [chunkListFuel, hB, if_false]
    congr 1
    refine chunkListFuel_congr ?_ ?_ <;>
      · simp only [List.length_drop, List.length_cons]
        omega

/-- The batch slices reassemble to the whole input: the slicing loop
partitions the chunk list into consecutive slices. -/
theorem chunkList_flatten {α : Type} {B : Nat} (hB : B ≠ 0) :
    ∀ l : List α, (chunkList B l).flatten = l := by
  suffices H : ∀ (n : Nat) (l : List α), l.length = n → (chunkList B l).flatten = l by
    intro l; exact H l.length l rfl
  intro n
  induction n using Nat.strong_induction_on with
  | _ n ih =>
    intro l hn
    rcases eq_or_ne l [] with rfl | hl
    · simp [chunkList_nil]
    · rw [chunkList_cons hB hl]
      simp only [List.flatten_cons]
      rw [ih (l.drop B).length ?_ (l.drop B) rfl]
      · exact List.take_append_drop B l
      · subst hn
        have h1 : 0 < l.length := List.length_pos.mpr hl
        have h2 : 1 ≤ B := Nat.one_le_iff_ne_zero.mpr hB
        simp only [List.length_drop]
        omega

/-- The number of batches is `(N + B - 1) // B`, the `total_batches` value the
source computes, which equals `⌈N / B⌉`. -/
theorem chunkList_length {α : Type} {B : Nat} (hB : B ≠ 0) :
    ∀ l : List α, (chunkList B l).length = (l.length + B - 1) / B := by
  suffices H : ∀ (n : Nat) (l : List α), l.length = n →
      (chunkList B l).length = (l.length + B - 1) / B by
    intro l; exact H l.length l rfl
  intro n
  induction n using Nat.strong_induction_on with
  | _ n ih =>
    intro l hn
    have hB1 : 1 ≤ B := Nat.one_le_iff_ne_zero.mpr hB
    rcases eq_or_ne l [] with rfl | hl
    · rw [chunkList_nil]
      have h0 : (0 + B - 1) / B = 0 := Nat.div_eq_of_lt (by omega)
      simpa using h0.symm
    · have hpos : 0 < l.length := List.length_pos.mpr hl
      rw [chunkList_cons hB hl]
      rcases le_or_lt l.length B with hle | hgt
      · rw [List.drop_eq_nil_of_le hle, chunkList_nil]
        have h1 : (l.length + B - 1) / B = 1 :=
          Nat.div_eq_of_lt_le (by omega) (by omega)
        simp [h1]
      · have hlen : (l.drop B).length = l.length - B := List.length_drop B l
        rw [List.length_cons, ih (l.drop B).length ?_ (l.drop B) rfl]
        · rw [hlen]
          have he : l.length - B + B - 1 = l.length - 1 := by omega
          have he2 : l.length + B - 1 = (l.length - 1) + B := by omega
          rw [he, he2, Nat.add_div_right _ (by omega)]
        · subst hn; simp only [List.length_drop]; omega

theorem chunkList_ne_nil {α : Type} {B : Nat} (hB : B ≠ 0) {l : List α} (hl : l ≠ []) :
    chunkList B l ≠ [] := by
  rw [chunkList_cons hB hl]; simp

/-- Every batch except the last has exactly `B` elements; the last has
`N % B` elements (or `B` when `B` divides `N`). -/
theorem chunkList_parts {α : Type} {B : Nat} (hB : B ≠ 0) :
    ∀ l : List α, l ≠ [] →
      (∀ b ∈ (chunkList B l).dropLast, b.length = B) ∧
      ∃ lst, (chunkList B l).getLast? = some lst ∧
        lst.length = (if l.length % B = 0 then B else l.length % B) := by
  suffices H : ∀ (n : Nat) (l : List α), l.length = n → l ≠ [] →
      (∀ b ∈ (chunkList B l).dropLast, b.length = B) ∧
      ∃ lst, (chunkList B l).getLast? = some lst ∧
        lst.length = (if l.length % B = 0 then B else l.length % B) by
    intro l; exact H l.length l rfl
  intro n
  induction n using Nat.strong_induction_on with
  | _ n ih =>
    intro l hn hl
    have hB1 : 1 ≤ B := Nat.one_le_iff_ne_zero.mpr hB
    have hpos : 0 < l.length := List.length_pos.mpr hl
    rcases le_or_lt l.length B with hle | hgt
    · rw [chunkList_cons hB hl, List.drop_eq_nil_of_le hle, chunkList_nil,
        List.take_of_length_le hle]
      refine ⟨by simp [List.dropLast], ⟨l, by simp, ?_⟩⟩
      rcases eq_or_lt_of_le hle with heq | hlt
      · simp [heq]
      · rw [if_neg (by rw [Nat.mod_eq_of_lt hlt]; omega), Nat.mod_eq_of_lt hlt]
    · have hdlen : (l.drop B).length = l.length - B := List.length_drop B l
      have hdl : l.drop B ≠ [] := by
        intro hc
        rw [hc] at hdlen
        simp at hdlen
        omega
      obtain ⟨hparts, lst, hlast, hlen⟩ :=
        ih (l.drop B).length (by subst hn; simp only [List.length_drop]; omega)
          (l.drop B) rfl hdl
      rw [chunkList_cons hB hl]
      have hrest : chunkList B (l.drop B) ≠ [] := chunkList_ne_nil hB hdl
      constructor
      · intro b hb
        rcases hq : chunkList B (l.drop B) with _ | ⟨r, rs⟩
        · exact absurd hq hrest
        · rw [hq] at hb
          simp only [List.dropLast] at hb
          rcases List.mem_cons.mp hb with rfl | hb'
          · rw [List.length_take]
            omega
          · exact hparts b (by rw [hq]; exact hb')
      · refine ⟨lst, ?_, ?_⟩
        · rcases hq : chunkList B (l.drop B) with _ | ⟨r, rs⟩
          · exact absurd hq hrest
          · rw [List.getLast?_cons_cons]
            rw [hq] at hlast
            exact hlast
        · rw [hlen, hdlen]
          have hmod : (l.length - B) % B = l.length % B :=
            (Nat.mod_eq_sub_mod (le_of_lt hgt)).symm
          rw [hmod]

end ChunkVectorizer

namespace ChunkVectorizer

theorem foldl_no_slash : ∀ (s acc : List Char), (∀ c ∈ s, c ≠ '/') →
    s.foldl (fun acc c => if c = '/' then [] else acc ++ [c]) acc = acc ++ s := by
  intro s
  induction s with
  | nil => intro acc _; simp
  | cons c cs ih =>
    intro acc h
    have hc : c ≠ '/' := h c (by simp)
    simp only [List.foldl_cons, if_neg hc]
    rw [ih _ (fun x hx => h x (by simp [hx]))]
    simp

theorem afterLastSlash_no_slash {m : List Char} (h : '/' ∉ m) :
    afterLastSlash m = m := by
  unfold afterLastSlash
  rw [foldl_no_slash m [] (fun c hc hceq => h (hceq ▸ hc))]
  simp

/-- The `'/' in model_name` conditional of the source is redundant:
`split('/')[-1]` of a slash-free string is the string itself. -/
theorem modelShortName_eq (m : List Char) : modelShortName m = afterLastSlash m := by
  unfold modelShortName
  split
  · rfl
  · rename_i h
    exact (afterLastSlash_no_slash h).symm

theorem deleteCollection_no_name {E : Type} (db : List (String × List (Row E)))
    (name : String) : ∀ c ∈ deleteCollection db name, c.1 ≠ name := by
  intro c hc
  unfold deleteCollection at hc
  have := List.mem_filter.mp hc
  simpa using this.2

theorem addRows_not_mem {E : Type} {db : List (String × List (Row E))} {name : String}
    (h : ∀ c ∈ db, c.1 ≠ name) (rows : List (Row E)) : addRows db name rows = db := by
  induction db with
  | nil => rfl
  | cons c cs ih =>
    have hc : c.1 ≠ name := h c (by simp)
    simp only [addRows, List.map_cons, if_neg hc]
    have := ih (fun x hx => h x (by simp [hx]))
    simp only [addRows] at this
    rw [this]

theorem addRows_head {E : Type} (name : String) (rs rows : List (Row E))
    (rest : List (String × List (Row E))) :
    addRows ((name, rs) :: rest) name rows = (name, rs ++ rows) :: addRows rest name rows := by
  simp [addRows]

theorem foldl_addRows {E : Type} (batches : List (List (Row E))) :
    ∀ (name : String) (rs : List (Row E)) (rest : List (String × List (Row E))),
      (∀ c ∈ rest, c.1 ≠ name) →
      batches.foldl (fun d batch => addRows d name batch) ((name, rs) :: rest) =
        (name, rs ++ batches.flatten) :: rest := by
  induction batches with
  | nil => intro name rs rest _; simp
  | cons b bs ih =>
    intro name rs rest h
    simp only [List.foldl_cons]
    rw [addRows_head, addRows_not_mem h]
    rw [ih name (rs ++ b) rest h]
    simp [List.flatten_cons, List.append_assoc]

theorem process_and_store_content {E : Type} (embed : JVal → E) {name : String}
    {rest : List (String × List (Row E))} {L : List String} {chunks : List Doc}
    {B : Nat} {db2 : VecDB E} (hB : B ≠ 0)
    (hrest : ∀ c ∈ rest, c.1 ≠ name)
    (h : process_and_store_chunks embed ⟨(name, []) :: rest, L⟩ name chunks B = .ok db2) :
    ∃ rows, chunks.mapM (toRow embed) = .ok rows ∧
      db2 = ⟨(name, rows) :: rest, L⟩ := by
  unfold process_and_store_chunks at h
  split at h
  case isTrue hc =>
    subst hc
    injection h with h'
    exact ⟨[], rfl, h'.symm⟩
  case isFalse hc =>
    cases hmap : chunks.mapM (toRow embed) with
    | error e => rw [hmap] at h; exact Except.noConfusion h
    | ok rows =>
      rw [hmap] at h
      injection h with h'
      refine ⟨rows, rfl, ?_⟩
      rw [← h']
      rw [foldl_addRows _ _ _ _ hrest, chunkList_flatten hB]
      simp

theorem vectorizerRun_ok {E : Type} {embed : JVal → E} {db : VecDB E}
    {i m : String} {lines : List Line} {B : Nat} {db2 : VecDB E} (hB : B ≠ 0)
    (h : vectorizerRun embed db i m (some lines) B = (db2, .ok ())) :
    ∃ chunks rows, load_chunks lines = .ok chunks ∧
      chunks.mapM (toRow embed) = .ok rows ∧
      db2.collections =
        (collectionName i m, rows) :: deleteCollection db.collections (collectionName i m) ∧
      db2.log = db.log ++ [collectionName i m] := by
  simp only [vectorizerRun, setup_collection] at h
  cases hld : load_chunks lines with
  | error e =>
    simp only [hld] at h
    injection h with h1 h2
    exact Except.noConfusion h2
  | ok chunks =>
    simp only [hld] at h
    cases hps : process_and_store_chunks embed
        ⟨(collectionName i m, []) :: deleteCollection db.collections (collectionName i m),
          db.log ++ [collectionName i m]⟩ (collectionName i m) chunks B with
    | error e =>
      simp only [hps] at h
      injection h with h1 h2
      exact Except.noConfusion h2
    | ok db3 =>
      simp only [hps] at h
      injection h with h1 h2
      obtain ⟨rows, hrows, hdb3⟩ :=
        process_and_store_content embed hB
          (deleteCollection_no_name db.collections (collectionName i m)) hps
      subst h1
      rw [hdb3]
      exact ⟨chunks, rows, rfl, hrows, rfl, rfl⟩

theorem getCollection_head {E : Type} (name : String) (rows : List (Row E))
    (rest : List (String × List (Row E))) (L : List String) :
    getCollection (⟨(name, rows) :: rest, L⟩ : VecDB E) name = some rows := by
  simp [getCollection, List.lookup]

end ChunkVectorizer

namespace DataValidator

theorem validate_ok_some {path : String} {lines : List Line} {r : Report}
    (h : validate path (some lines) = .ok r) :
    ∃ st', runLines initState 1 lines = .ok st' ∧ r = generate_report path st' := by
  simp only [validate] at h
  cases hr : runLines initState 1 lines with
  | error e => rw [hr] at h; exact Except.noConfusion h
  | ok st' => rw [hr] at h; injection h with h'; exact ⟨st', rfl, h'.symm⟩

theorem generate_report_stats (path : String) (st : VState) :
    (generate_report path st).stats = st.stats := rfl

theorem generate_report_passed (path : String) (st : VState) :
    (generate_report path st).validation_passed = st.errors.isEmpty := rfl

end DataValidator

namespace DataValidator

theorem generate_report_errors (path : String) (st : VState) :
    (generate_report path st).errors = st.errors := rfl

/-- Two pointwise-disjoint predicates count at most the length. -/
theorem countP_disjoint_le {α : Type} (p q : α → Bool)
    (hdisj : ∀ x, ¬(p x = true ∧ q x = true)) : ∀ l : List α,
    l.countP p + l.countP q ≤ l.length := by
  intro l
  induction l with
  | nil => simp
  | cons a l ih =>
    rw [List.countP_cons, List.countP_cons, List.length_cons]
    by_cases hpa : p a = true
    · have hqa : ¬ q a = true := fun hqa => hdisj a ⟨hpa, hqa⟩
      simp only [hpa, if_true]
      simp [hqa]
      omega
    · simp [hpa]
      by_cases hqa : q a = true <;> simp [hqa] <;> omega

/-- When two disjoint predicates count up to the whole length, every element
satisfies one of them. -/
theorem countP_all_or {α : Type} (p q : α → Bool) : ∀ (l : List α),
    (∀ x, ¬(p x = true ∧ q x = true)) →
    l.countP p + l.countP q = l.length → ∀ x ∈ l, p x = true ∨ q x = true := by
  intro l
  induction l with
  | nil => intro _ _ x hx; cases hx
  | cons a l ih =>
    intro hdisj hsum x hx
    have hle := countP_disjoint_le p q hdisj l
    rw [List.countP_cons, List.countP_cons, List.length_cons] at hsum
    rcases List.mem_cons.mp hx with rfl | hx'
    · by_cases hpa : p x = true
      · exact Or.inl hpa
      · by_cases hqa : q x = true
        · exact Or.inr hqa
        · simp [hpa, hqa] at hsum
          omega
    · have hifs : (if p a = true then 1 else 0) + (if q a = true then 1 else 0) ≤ 1 := by
        by_cases hpa : p a = true
        · have hqa : ¬ q a = true := fun hqa => hdisj a ⟨hpa, hqa⟩
          simp [hpa, hqa]
        · by_cases hqa : q a = true <;> simp [hpa, hqa]
      exact ih hdisj (by omega) x hx'

theorem wellFormed_valid : ∀ {l : Line}, Line.isWellFormed l = true →
    Line.isValidDoc l = true := by
  intro l h
  cases l with
  | blank => simp [Line.isWellFormed] at h
  | malformed => simp [Line.isWellFormed] at h
  | doc d =>
    simp only [Line.isWellFormed, Bool.and_eq_true] at h
    obtain ⟨⟨h1, h2⟩, h3⟩ := h
    obtain ⟨s1, e1⟩ := isStrField_lookup h1
    obtain ⟨s2, e2⟩ := isStrField_lookup h2
    obtain ⟨s3, e3⟩ := isStrField_lookup h3
    simp [Line.isValidDoc, missingOf, required_fields, List.filter, e1, e2, e3]

end DataValidator

open DataValidator ChunkVectorizer McpServer

/-- C10 (confirmed): after every validator run on an existing file that
returns a report, the line counters partition the input:
`total_lines = empty_lines + json_errors + missing_fields + valid_docs`. -/
theorem C10_partition {path : String} {lines : List Line} {r : Report}
    (h : validate path (some lines) = .ok r) :
    r.stats.total_lines =
      r.stats.empty_lines + r.stats.json_errors + r.stats.missing_fields +
        r.stats.valid_docs := by
  obtain ⟨st', hrun, rfl⟩ := validate_ok_some h
  obtain ⟨ht, he, hj, hv, hm, _, _, _⟩ := runLines_ok hrun
  rw [generate_report_stats, ht, he, hj, hv, hm]
  have hpart := countP_partition lines
  simp only [initState, initStats]
  omega

set_option maxRecDepth 8000 in
/-- Witness for C10 at a concrete four-line file. -/
theorem C10_partition_witness :
    validate "data.jsonl" (some exFileC6ok) = .ok (reportOf "data.jsonl" (some exFileC6ok)) ∧
    (reportOf "data.jsonl" (some exFileC6ok)).stats.total_lines =
      (reportOf "data.jsonl" (some exFileC6ok)).stats.empty_lines +
        (reportOf "data.jsonl" (some exFileC6ok)).stats.json_errors +
        (reportOf "data.jsonl" (some exFileC6ok)).stats.missing_fields +
        (reportOf "data.jsonl" (some exFileC6ok)).stats.valid_docs :=
  ⟨by decide,
   @C10_partition "data.jsonl" exFileC6ok (reportOf "data.jsonl" (some exFileC6ok))
     (by decide)⟩

/-- C7 (confirmed): when every non-blank line parses, the loader returns
the parsed objects in file order and its length is the number of non-blank
lines. -/
theorem C7_loader {lines : List Line} (h : ∀ l ∈ lines, l.isMalformed = false) :
    load_chunks lines = .ok (docsOf lines) ∧
    (docsOf lines).length = lines.countP (fun l => !l.isBlank) :=
  ⟨load_chunks_ok h, docsOf_length h⟩

/-- Witness for C7 at a concrete file with a blank line. -/
theorem C7_loader_witness :
    (∀ l ∈ exFileLoad, l.isMalformed = false) ∧
    (load_chunks exFileLoad = .ok (docsOf exFileLoad) ∧
     (docsOf exFileLoad).length = exFileLoad.countP (fun l => !l.isBlank)) :=
  ⟨by decide, C7_loader (by decide)⟩

/-- C4 (confirmed): the batch loop partitions a non-empty input of length
`N` into `(N + B - 1) / B = ⌈N / B⌉` consecutive slices; all but the last
have length `B` and the last has length `N % B` (or `B` when `B ∣ N`). -/
theorem C4_batching {α : Type} (l : List α) (B : Nat) (hB : 1 ≤ B) (hl : l ≠ []) :
    (chunkList B l).length = (l.length + B - 1) / B ∧
    (chunkList B l).flatten = l ∧
    (∀ b ∈ (chunkList B l).dropLast, b.length = B) ∧
    (chunkList B l).getLast?.map List.length =
      some (if l.length % B = 0 then B else l.length % B) := by
  have hB0 : B ≠ 0 := by omega
  obtain ⟨hparts, lst, hlast, hlen⟩ := chunkList_parts hB0 l hl
  refine ⟨chunkList_length hB0 l, chunkList_flatten hB0 l, hparts, ?_⟩
  rw [hlast]
  simp [hlen]

/-- Witness for C4 at `N = 5`, `B = 2`. -/
theorem C4_batching_witness :
    (1 ≤ 2 ∧ ([0, 1, 2, 3, 4] : List Nat) ≠ []) ∧
    ((chunkList 2 ([0, 1, 2, 3, 4] : List Nat)).length = (5 + 2 - 1) / 2 ∧
     (chunkList 2 ([0, 1, 2, 3, 4] : List Nat)).flatten = [0, 1, 2, 3, 4] ∧
     (∀ b ∈ (chunkList 2 ([0, 1, 2, 3, 4] : List Nat)).dropLast, b.length = 2) ∧
     (chunkList 2 ([0, 1, 2, 3, 4] : List Nat)).getLast?.map List.length =
       some (if ([0, 1, 2, 3, 4] : List Nat).length % 2 = 0 then 2
             else ([0, 1, 2, 3, 4] : List Nat).length % 2)) := by
  refine ⟨⟨by decide, by decide⟩, ?_⟩
  have := C4_batching ([0, 1, 2, 3, 4] : List Nat) 2 (by decide) (by decide)
  simpa using this

/-- C5 (corrected): the code removes every occurrence of the substring
`.jsonl` from the base name, not only a trailing suffix.  At
`a.jsonl.jsonl` + `m` the code yields `a_m` while the claim's
suffix-removal formula yields `a.jsonl_m`. -/
theorem C5_counterexample :
    collectionName "x.jsonl" "org/model" = "x_model" ∧
    collectionName "a.jsonl.jsonl" "m" = "a_m" ∧
    collectionNameClaimChars "a.jsonl.jsonl".toList "m".toList = "a.jsonl_m".toList ∧
    collectionName "a.jsonl.jsonl" "m" ≠ "a.jsonl_m" := by decide

/-- C5 (amended): the derived collection name is the base name (after the
last `/`) with every occurrence of `.jsonl` removed, joined by `_` to the
substring of the model name after the last `/` (the whole name when it has
no `/`), truncated to at most 63 characters; for `x.jsonl` + `org/model`
this gives `x_model`. -/
theorem C5_amended (input_file model_name : List Char) :
    collectionNameChars input_file model_name =
      collectionNameAmendedChars input_file model_name ∧
    collectionName "x.jsonl" "org/model" = "x_model" := by
  constructor
  · unfold collectionNameChars collectionNameAmendedChars
    rw [modelShortName_eq]
    dsimp only
    split
    · rfl
    · rename_i hle
      push_neg at hle
      exact (List.take_of_length_le hle).symm
  · decide

/-- C1 (corrected): on a file of one malformed line and nine well-formed
records with distinct ids, the report indeed has `json_errors = 1` and
`valid_docs = 9`, but `validation_passed` is `False`, not `True`: the JSON
parse error is appended to `errors` and the pass flag is
`len(errors) == 0`. -/
theorem C1_amended {path : String} {lines : List Line} {r : Report}
    (hmal : lines.countP Line.isMalformed = 1)
    (hwf : lines.countP DataValidator.Line.isWellFormed = 9)
    (hlen : lines.length = 10)
    (hids : (validIdsOf lines).Nodup)
    (hrun : validate path (some lines) = .ok r) :
    r.stats.json_errors = 1 ∧ r.stats.valid_docs = 9 ∧
    r.validation_passed = false := by
  obtain ⟨st', hrl, rfl⟩ := validate_ok_some hrun
  obtain ⟨_, _, hj, hv, _, ⟨es, hes, hesl⟩, _, _⟩ := runLines_ok hrl
  have hdisj : ∀ x : Line,
      ¬(Line.isMalformed x = true ∧ DataValidator.Line.isWellFormed x = true) := by
    intro x ⟨h1, h2⟩
    cases x <;> simp [Line.isMalformed, DataValidator.Line.isWellFormed] at h1 h2
  have hall := countP_all_or _ _ lines hdisj (by rw [hmal, hwf, hlen])
  have hcong : lines.countP DataValidator.Line.isValidDoc =
      lines.countP DataValidator.Line.isWellFormed := by
    refine List.countP_congr ?_
    intro x hx
    constructor
    · intro hvx
      rcases hall x hx with hm | hw
      · cases x <;>
          simp [Line.isMalformed, DataValidator.Line.isValidDoc] at hm hvx
      · exact hw
    · exact wellFormed_valid
  refine ⟨?_, ?_, ?_⟩
  · rw [generate_report_stats, hj, hmal]
    simp [initState, initStats]
  · rw [generate_report_stats, hv, hcong, hwf]
    simp [initState, initStats]
  · rw [generate_report_passed, hes]
    rw [hmal] at hesl
    cases es with
    | nil => simp at hesl
    | cons a es' => simp [initState]

set_option maxRecDepth 8000 in
/-- C1 as stated is false: `exFileC1` lies in the claim's file family, yet
its report has `validation_passed = False`. -/
theorem C1_counterexample :
    exFileC1.countP Line.isMalformed = 1 ∧
    exFileC1.countP DataValidator.Line.isWellFormed = 9 ∧
    exFileC1.length = 10 ∧
    (validIdsOf exFileC1).Nodup ∧
    validate "data.jsonl" (some exFileC1) = .ok (reportOf "data.jsonl" (some exFileC1)) ∧
    (reportOf "data.jsonl" (some exFileC1)).stats.json_errors = 1 ∧
    (reportOf "data.jsonl" (some exFileC1)).stats.valid_docs = 9 ∧
    (reportOf "data.jsonl" (some exFileC1)).validation_passed = false := by decide

set_option maxRecDepth 8000 in
/-- Witness for the amended C1 at the same concrete file. -/
theorem C1_amended_witness :
    exFileC1.countP Line.isMalformed = 1 ∧
    exFileC1.countP DataValidator.Line.isWellFormed = 9 ∧
    exFileC1.length = 10 ∧
    (validIdsOf exFileC1).Nodup ∧
    validate "data.jsonl" (some exFileC1) = .ok (reportOf "data.jsonl" (some exFileC1)) ∧
    ((reportOf "data.jsonl" (some exFileC1)).stats.json_errors = 1 ∧
     (reportOf "data.jsonl" (some exFileC1)).stats.valid_docs = 9 ∧
     (reportOf "data.jsonl" (some exFileC1)).validation_passed = false) :=
  ⟨by decide, by decide, by decide, by decide, by decide,
   @C1_amended "data.jsonl" exFileC1 (reportOf "data.jsonl" (some exFileC1))
     (by decide) (by decide) (by decide) (by decide) (by decide)⟩

/-- C6 (corrected): the loader aborts on any malformed line, and the
validator never aborts *because of* a malformed line — when it returns a
report it has processed every line, counted every malformed one in
`json_errors` and recorded errors.  (The blanket "the validator does not
abort on the same file" is false: a structurally valid record with a
non-string id makes the validator itself raise, see the counterexample.) -/
theorem C6_amended {path : String} {lines : List Line} {r : Report}
    (hmal : Line.malformed ∈ lines)
    (hrun : validate path (some lines) = .ok r) :
    load_chunks lines = .error () ∧
    r.stats.total_lines = lines.length ∧
    r.stats.json_errors = lines.countP Line.isMalformed ∧
    r.errors ≠ [] := by
  obtain ⟨st', hrl, rfl⟩ := validate_ok_some hrun
  obtain ⟨ht, _, hj, _, _, ⟨es, hes, hesl⟩, _, _⟩ := runLines_ok hrl
  refine ⟨load_chunks_error hmal, ?_, ?_, ?_⟩
  · rw [generate_report_stats, ht]
    simp [initState, initStats]
  · rw [generate_report_stats, hj]
    simp [initState, initStats]
  · have hc : 1 ≤ lines.countP Line.isMalformed := by
      have : 0 < lines.countP Line.isMalformed :=
        List.countP_pos_iff.mpr ⟨Line.malformed, hmal, rfl⟩
      omega
    rw [generate_report_errors, hes]
    cases es with
    | nil => exact absurd (le_trans hc hesl) (by simp)
    | cons a es' => simp [initState]

/-- C6 as stated is false: on `exFileC6` (one malformed line plus a
structurally valid record whose id is a number) the loader fails, but the
validator also aborts — `re.match` raises `TypeError` on the non-string
id — instead of returning a report. -/
theorem C6_counterexample :
    Line.malformed ∈ exFileC6 ∧
    load_chunks exFileC6 = .error () ∧
    validate "f" (some exFileC6) = .error () := by decide

set_option maxRecDepth 8000 in
/-- Witness for the amended C6 at a file on which the validator completes. -/
theorem C6_amended_witness :
    Line.malformed ∈ exFileC6ok ∧
    validate "data.jsonl" (some exFileC6ok) = .ok (reportOf "data.jsonl" (some exFileC6ok)) ∧
    (load_chunks exFileC6ok = .error () ∧
     (reportOf "data.jsonl" (some exFileC6ok)).stats.total_lines = exFileC6ok.length ∧
     (reportOf "data.jsonl" (some exFileC6ok)).stats.json_errors =
       exFileC6ok.countP Line.isMalformed ∧
     (reportOf "data.jsonl" (some exFileC6ok)).errors ≠ []) :=
  ⟨by decide, by decide,
   @C6_amended "data.jsonl" exFileC6ok (reportOf "data.jsonl" (some exFileC6ok))
     (by decide) (by decide)⟩

/-- C8 (confirmed): a file whose structurally valid records carry
`doc_000001` exactly twice, all other ids distinct, reports
`duplicate_ids = 1`. -/
theorem C8_duplicate_ids {path : String} {lines : List Line} {r : Report}
    {u v w : List String}
    (hrun : validate path (some lines) = .ok r)
    (hids : validIdsOf lines = u ++ ("doc_000001" :: (v ++ ("doc_000001" :: w))))
    (hu : "doc_000001" ∉ u) (hv : "doc_000001" ∉ v) (hw : "doc_000001" ∉ w)
    (hnd : (u ++ v ++ w).Nodup) :
    r.stats.duplicate_ids = 1 := by
  obtain ⟨st', hrl, rfl⟩ := validate_ok_some hrun
  obtain ⟨_, _, _, _, _, _, _, hd⟩ := runLines_ok hrl
  rw [generate_report_stats, hd, hids]
  simp only [initState, initStats]
  have hnd' : (u ++ (v ++ w)).Nodup := by rwa [List.append_assoc] at hnd
  obtain ⟨hnu, hnvw, hdu⟩ := List.nodup_append.mp hnd'
  obtain ⟨hnv, hnw, hdv⟩ := List.nodup_append.mp hnvw
  have h1 : dupCount ([] : List String) u = 0 := dupCount_eq_zero hnu (by simp)
  rw [dupCount_append, h1]
  have hsa : (seenFold [] u).contains "doc_000001" = false := by
    have hns : "doc_000001" ∉ seenFold [] u := by
      rw [mem_seenFold]
      rintro (hc | hc)
      · cases hc
      · exact hu hc
    simpa using hns
  simp only [dupCount, hsa, Bool.false_eq_true, if_false]
  rw [dupCount_append]
  have h2 : dupCount (seenFold [] u ++ ["doc_000001"]) v = 0 := by
    refine dupCount_eq_zero hnv ?_
    intro x hx
    simp only [List.mem_append, List.mem_singleton, mem_seenFold]
    rintro ((hc | hc) | rfl)
    · cases hc
    · exact hdu hc (List.mem_append.mpr (Or.inl hx))
    · exact hv hx
  rw [h2]
  have hsa2 : (seenFold (seenFold [] u ++ ["doc_000001"]) v).contains "doc_000001" = true := by
    have hms : "doc_000001" ∈ seenFold (seenFold [] u ++ ["doc_000001"]) v := by
      rw [mem_seenFold]
      exact Or.inl (List.mem_append.mpr (Or.inr (by simp)))
    simpa using hms
  simp only [dupCount, hsa2, if_true]
  have h3 : dupCount (seenFold (seenFold [] u ++ ["doc_000001"]) v) w = 0 := by
    refine dupCount_eq_zero hnw ?_
    intro x hx
    rw [mem_seenFold]
    rintro (hc | hc)
    · rw [List.mem_append] at hc
      rcases hc with hc | hc
      · rw [mem_seenFold] at hc
        rcases hc with hc | hc
        · cases hc
        · exact hdu hc (List.mem_append.mpr (Or.inr hx))
      · simp only [List.mem_singleton] at hc
        subst hc
        exact hw hx
    · exact hdv hc hx
  rw [h3]

set_option maxRecDepth 8000 in
/-- Witness for C8 at a three-record file with one repeated id. -/
theorem C8_duplicate_ids_witness :
    validate "f" (some exFileC8) = .ok (reportOf "f" (some exFileC8)) ∧
    validIdsOf exFileC8 = [] ++ ("doc_000001" :: (["other"] ++ ("doc_000001" :: []))) ∧
    "doc_000001" ∉ ([] : List String) ∧
    "doc_000001" ∉ (["other"] : List String) ∧
    (([] : List String) ++ ["other"] ++ []).Nodup ∧
    (reportOf "f" (some exFileC8)).stats.duplicate_ids = 1 :=
  ⟨by decide, by decide, by decide, by decide, by decide,
   @C8_duplicate_ids "f" exFileC8 (reportOf "f" (some exFileC8)) [] ["other"] []
     (by decide) (by decide) (by decide) (by decide) (by decide) (by decide)⟩

/-- C2 (corrected): with a nonexistent input file the run does fail (the
`FileNotFoundError` from `open` propagates), but not without side effects:
`__init__` has already deleted any collection of the derived name, recreated
it empty, and appended a line to the collections log, because collection
setup precedes the first read of the input file. -/
theorem C2_amended {E : Type} (embed : JVal → E) (db : VecDB E) (i m : String)
    (B : Nat) :
    (vectorizerRun embed db i m none B).2 = .error () ∧
    getCollection (vectorizerRun embed db i m none B).1 (collectionName i m) =
      some [] ∧
    (vectorizerRun embed db i m none B).1.log = db.log ++ [collectionName i m] := by
  refine ⟨rfl, ?_, rfl⟩
  show getCollection
      (⟨(collectionName i m, []) :: deleteCollection db.collections (collectionName i m),
        db.log ++ [collectionName i m]⟩ : VecDB E) (collectionName i m) = some []
  exact getCollection_head _ _ _ _

/-- C2 as stated is false: running on a database that holds collection
`data_m` with one row, with a missing input file, reports the error but
leaves the collection deleted-and-recreated empty and the log grown. -/
theorem C2_counterexample :
    (vectorizerRun (fun _ => (0 : Nat)) exDB "data.jsonl" "m" none 32).2 = .error () ∧
    getCollection exDB "data_m" =
      some [⟨JVal.jstr "a", 0, JVal.jstr "t", JVal.jstr "s"⟩] ∧
    getCollection (vectorizerRun (fun _ => (0 : Nat)) exDB "data.jsonl" "m" none 32).1
      "data_m" = some [] ∧
    (vectorizerRun (fun _ => (0 : Nat)) exDB "data.jsonl" "m" none 32).1.log ≠
      exDB.log := by decide

/-- C3 (confirmed): after two successful runs against the same input file
name and model name, the collection under the derived name holds exactly the
rows of the latest run — the loaded chunks of the second file, row-built and
embedded — with nothing carried over from the first run. -/
theorem C3_two_runs {E : Type} {embed : JVal → E} {db db1 db2 : VecDB E}
    {i m : String} {lines1 lines2 : List Line} {B1 B2 : Nat} (hB2 : B2 ≠ 0)
    (h1 : vectorizerRun embed db i m (some lines1) B1 = (db1, .ok ()))
    (h2 : vectorizerRun embed db1 i m (some lines2) B2 = (db2, .ok ())) :
    getCollection db2 (collectionName i m) =
      ((load_chunks lines2).bind (fun chunks => chunks.mapM (toRow embed))).toOption := by
  obtain ⟨chunks, rows, hld, hmap, hcol, _⟩ := vectorizerRun_ok hB2 h2
  rw [hld]
  show getCollection db2 (collectionName i m) = (chunks.mapM (toRow embed)).toOption
  rw [hmap]
  show getCollection db2 (collectionName i m) = some rows
  unfold getCollection
  rw [hcol]
  simp [List.lookup]

/-- Witness for C3: two concrete successful runs; the collection ends with
exactly the second file's single row. -/
theorem C3_two_runs_witness :
    vectorizerRun (fun _ => (0 : Nat)) exEmptyDB "c.jsonl" "m" (some exFileLoad) 2 =
      ((vectorizerRun (fun _ => (0 : Nat)) exEmptyDB "c.jsonl" "m" (some exFileLoad) 2).1,
        .ok ()) ∧
    vectorizerRun (fun _ => (0 : Nat))
        (vectorizerRun (fun _ => (0 : Nat)) exEmptyDB "c.jsonl" "m" (some exFileLoad) 2).1
        "c.jsonl" "m" (some exFileLoad2) 1 =
      ((vectorizerRun (fun _ => (0 : Nat))
          (vectorizerRun (fun _ => (0 : Nat)) exEmptyDB "c.jsonl" "m" (some exFileLoad) 2).1
          "c.jsonl" "m" (some exFileLoad2) 1).1, .ok ()) ∧
    getCollection
        (vectorizerRun (fun _ => (0 : Nat))
          (vectorizerRun (fun _ => (0 : Nat)) exEmptyDB "c.jsonl" "m" (some exFileLoad) 2).1
          "c.jsonl" "m" (some exFileLoad2) 1).1
        (collectionName "c.jsonl" "m") =
      ((load_chunks exFileLoad2).bind
        (fun chunks => chunks.mapM (toRow (fun _ => (0 : Nat))))).toOption :=
  ⟨by decide, by decide,
   @C3_two_runs Nat (fun _ => (0 : Nat)) exEmptyDB
     (vectorizerRun (fun _ => (0 : Nat)) exEmptyDB "c.jsonl" "m" (some exFileLoad) 2).1
     (vectorizerRun (fun _ => (0 : Nat))
        (vectorizerRun (fun _ => (0 : Nat)) exEmptyDB "c.jsonl" "m" (some exFileLoad) 2).1
        "c.jsonl" "m" (some exFileLoad2) 1).1
     "c.jsonl" "m" exFileLoad exFileLoad2 2 1
     (by decide) (by decide) (by decide)⟩

/-- C9 (confirmed): a successful `remember` call appends exactly one row —
id `"memory_" ++ token`, the given text as document, metadata with a source
and a timestamp field — and returns success with that id; among the four
exposed tools only `remember` touches the memory collection, and it only
appends (no update or delete path exists). -/
theorem C9_remember {E : Type} (encode : String → E) (token now text : String)
    (mem : List (MemRow E))
    (h : (remember encode token now mem text).2.success = true) :
    (remember encode token now mem text).1 =
      mem ++ [⟨"memory_" ++ token, encode text, text, ⟨"user_memory", now⟩⟩] ∧
    (remember encode token now mem text).2.memory_id = some ("memory_" ++ token) ∧
    ∀ op : McpOp, ∃ added, memoryAfter encode token now mem op = mem ++ added := by
  refine ⟨?_, ?_, ?_⟩
  · simp only [remember] at h ⊢
    split at h
    · simp at h
    · rename_i hany
      rw [if_neg hany]
  · simp only [remember] at h ⊢
    split at h
    · simp at h
    · rename_i hany
      rw [if_neg hany]
  · intro op
    cases op with
    | rememberText t =>
      simp only [memoryAfter, remember]
      split
      · exact ⟨[], by simp⟩
      · exact ⟨_, rfl⟩
    | listCollections => exact ⟨[], by simp [memoryAfter]⟩
    | queryMain q n => exact ⟨[], by simp [memoryAfter]⟩
    | searchMemory q n => exact ⟨[], by simp [memoryAfter]⟩

/-- Witness for C9 at a concrete successful call on an empty memory
collection. -/
theorem C9_remember_witness :
    (remember (fun _ => (0 : Nat)) "t1" "2026-10-12" [] "note").2.success = true ∧
    ((remember (fun _ => (0 : Nat)) "t1" "2026-10-12" [] "note").1 =
        [] ++ [⟨"memory_" ++ "t1", 0, "note", ⟨"user_memory", "2026-10-12"⟩⟩] ∧
     (remember (fun _ => (0 : Nat)) "t1" "2026-10-12" [] "note").2.memory_id =
        some ("memory_" ++ "t1") ∧
     ∀ op : McpOp, ∃ added,
        memoryAfter (fun _ => (0 : Nat)) "t1" "2026-10-12" [] op = [] ++ added) :=
  ⟨by decide, C9_remember (fun _ => (0 : Nat)) "t1" "2026-10-12" "note" [] (by decide)⟩
